import Mathlib

/-!
Shallow embedding of the SLR parser generator in `src/index.py`.

The Python source builds, from a grammar given as text, the FIRST and FOLLOW
sets, the LR(0) automaton, the SLR(1) parsing table, and a table-driven
shift-reduce engine.  All Python string operations (`split`, `strip`,
`replace`, `isupper`) are re-implemented below by structural recursion on
`List Char` so that every definition evaluates inside the kernel; Python
`dict`s (insertion ordered) become association lists, Python `set`s of
strings become duplicate-free `List String` in insertion order, and the
mutable `self.first` / `self.follow` tables become total functions
`String → List String` updated with `Function.update`.  Python's mutable-set
aliasing in `compute_follow_sets` (`trailer = self.first[symbol]` binds a
reference, and a later `trailer.update` mutates the referenced FIRST set)
is modelled explicitly by the `Trailer` type below.  Loops whose iteration
count is not structurally bounded (`while changed`, the BFS over item sets,
the shift-reduce driver) take a fuel argument and return `none` on fuel
exhaustion; a `none` from an operation that would raise a Python exception
(IndexError/KeyError) is also propagated.
-/

namespace SLR

/-! ### Generic list-as-set and association-list helpers -/

/-- Insert into a duplicate-free list, keeping insertion order
(models Python `set.add`). -/
def setInsert {α} [DecidableEq α] (l : List α) (x : α) : List α :=
  if x ∈ l then l else l ++ [x]

/-- Union of two lists-as-sets (models Python `set.update` / `|`). -/
def listUnion {α} [DecidableEq α] (l r : List α) : List α :=
  r.foldl setInsert l

/-- Set difference (models Python `set - set`). -/
def listDiff {α} [DecidableEq α] (l r : List α) : List α :=
  l.filter (fun x => x ∉ r)

/-- Remove one element (models Python `set - {x}`). -/
def listRemove {α} [DecidableEq α] (l : List α) (x : α) : List α :=
  l.filter (fun y => y ≠ x)

/-- First-match lookup in an association list (Python `dict` read). -/
def lookupS {κ α : Type} [DecidableEq κ] : List (κ × α) → κ → Option α
  | [], _ => none
  | (k', v) :: rest, k => if k' = k then some v else lookupS rest k

/-- Python `dict` write: replace the value at an existing key in place
(keeping its position) or append a new binding at the end. -/
def upsertS {κ α : Type} [DecidableEq κ] : List (κ × α) → κ → α → List (κ × α)
  | [], k, v => [(k, v)]
  | (k', v') :: rest, k, v =>
    if k' = k then (k, v) :: rest else (k', v') :: upsertS rest k v

/-- Write only if the key is absent (the `if symbol not in table` guard). -/
def insertIfAbsent {κ α : Type} [DecidableEq κ] (m : List (κ × α)) (k : κ) (v : α) :
    List (κ × α) :=
  match lookupS m k with
  | some _ => m
  | none => upsertS m k v

/-- Python negative-index aware list access: `l[i]` with `i` possibly < 0. -/
def pyIndex {α} (l : List α) (i : Int) : Option α :=
  if 0 ≤ i then l.get? i.toNat
  else
    let j : Int := i + l.length
    if 0 ≤ j then l.get? j.toNat else none

/-! ### Python string primitives, structurally recursive on `List Char` -/

/-- The whitespace characters `str.split()` / `str.strip()` treat as
separators (the ASCII ones that can occur in grammar text). -/
def isWsChar (c : Char) : Bool :=
  c = ' ' || c = '\t' || c = '\n' || c = '\r'

/-- Auxiliary for whitespace splitting: `cur` holds the current word
reversed. -/
def splitWSAux : List Char → List Char → List String
  | [], [] => []
  | [], cur => [String.mk cur.reverse]
  | c :: rest, cur =>
    if isWsChar c then
      match cur with
      | [] => splitWSAux rest []
      | _ => String.mk cur.reverse :: splitWSAux rest []
    else splitWSAux rest (c :: cur)

/-- Python `s.split()` — split on whitespace runs, dropping empty pieces. -/
def splitWS (s : String) : List String := splitWSAux s.data []

/-- Python `s.strip()`. -/
def trimStr (s : String) : String :=
  String.mk (((s.data.dropWhile isWsChar).reverse.dropWhile isWsChar).reverse)

/-- Split on a single separator character, keeping empty pieces
(Python `s.split(";")`, `s.split("|")`). -/
def splitCharAux (sep : Char) : List Char → List Char → List String
  | acc, [] => [String.mk acc.reverse]
  | acc, c :: rest =>
    if c = sep then String.mk acc.reverse :: splitCharAux sep [] rest
    else splitCharAux sep (c :: acc) rest

def splitChar (sep : Char) (s : String) : List String := splitCharAux sep [] s.data

/-- Split at the first `->`, as Python `rule.split("->", 1)`; `none` when the
rule contains no `->` (the `"->" not in rule` check). -/
def splitArrowAux : List Char → List Char → Option (String × String)
  | _, [] => none
  | acc, '-' :: '>' :: rest => some (String.mk acc.reverse, String.mk rest)
  | acc, c :: rest => splitArrowAux (c :: acc) rest

def splitArrow (s : String) : Option (String × String) := splitArrowAux [] s.data

/-- Is `pat` a prefix of `l`? -/
def beginsWith : List Char → List Char → Bool
  | [], _ => true
  | _ :: _, [] => false
  | p :: ps, c :: cs => p = c && beginsWith ps cs

/-- Python `s.replace(old, new)`: all non-overlapping occurrences, left to
right, never rescanning the replacement.  The fuel is the string length:
each step consumes at least one character. -/
def replaceAux (pat rep : List Char) : Nat → List Char → List Char
  | 0, s => s
  | _ + 1, [] => []
  | n + 1, c :: rest =>
    if beginsWith pat (c :: rest) then
      rep ++ replaceAux pat rep n ((c :: rest).drop pat.length)
    else c :: replaceAux pat rep n rest

def replaceStr (s pat rep : String) : String :=
  String.mk (replaceAux pat.data rep.data s.data.length s.data)

/-- `" ".join(parts)`. -/
def joinSp : List String → String
  | [] => ""
  | [s] => s
  | s :: rest => s ++ " " ++ joinSp rest

/-- Python `str.isupper()` restricted to ASCII: at least one cased (here:
alphabetic) character, and no cased character is lowercase. -/
def pyIsUpper (s : String) : Bool :=
  s.data.any (fun c => c.isAlpha) && s.data.all (fun c => !c.isAlpha || c.isUpper)

/-- The apostrophe used to build the augmented start symbol `S'`. -/
def apos : String := String.mk [Char.ofNat 39]

/-- Stable sort by descending length, as Python
`sorted(ts, key=len, reverse=True)` (equal lengths keep original order). -/
def insertLenDesc (x : String) : List String → List String
  | [] => [x]
  | y :: ys => if y.length < x.length then x :: y :: ys else y :: insertLenDesc x ys

def sortLenDesc (l : List String) : List String :=
  l.foldl (fun acc x => insertLenDesc x acc) []

/-! ### Grammar model (`parse_grammar`, `augment_grammar`) -/

/-- A grammar: insertion-ordered map from LHS to its list of alternatives,
each alternative kept as the raw (stripped) production string, exactly as the
Python code stores it. -/
abbrev Grammar := List (String × List String)

/-- `self.grammar[lhs]` on the `defaultdict(list)`: missing keys read as `[]`. -/
def prods (g : Grammar) (lhs : String) : List String :=
  (lookupS g lhs).getD []

/-- One rule `LHS -> RHS`: returns `none` exactly when the Python code
`st.error(...); return None` (missing `->`, empty LHS or RHS). -/
def parseRule (rule : String) : Option (String × List String) :=
  match splitArrow rule with
  | none => none
  | some (lhs0, rhs0) =>
    let lhs := trimStr lhs0
    let rhs := trimStr rhs0
    if lhs = "" ∨ rhs = "" then none
    else some (lhs, (splitChar '|' rhs).map trimStr)

/-- The `;`-separated rules of the input, in order, each parsed
(duplicated LHS kept): the loop body of `parse_grammar` before the
`grammar[lhs] = ...` write. -/
def parsedRules (raw : String) : Option (List (String × List String)) :=
  (splitChar ';' raw).foldl
    (fun acc piece =>
      match acc with
      | none => none
      | some rs =>
        let rule := trimStr piece
        if rule = "" then some rs
        else match parseRule rule with
          | none => none
          | some r => some (rs ++ [r]))
    (some [])

/-- Apply the `grammar[lhs] = [...]` writes in rule order. -/
def upsertAll (init : Grammar) (rs : List (String × List String)) : Grammar :=
  rs.foldl (fun g r => upsertS g r.1 r.2) init

/-- `parse_grammar`: `none` on any malformed rule or when no rule remains. -/
def parseGrammar (raw : String) : Option Grammar :=
  match parsedRules raw with
  | none => none
  | some rs =>
    let g := upsertAll [] rs
    if g = [] then none else some g

/-- `list(self.grammar.keys())[0]`, read before augmentation. -/
def startOf (g : Grammar) : Option String := g.head?.map Prod.fst

/-- `augment_grammar`: add `S' -> S` and repoint the start symbol. -/
def augment (g : Grammar) (start : String) : Grammar × String :=
  let newStart := start ++ apos
  (upsertS g newStart [start], newStart)

/-! ### Symbol extraction (`_extract_symbols`) -/

/-- Classify the whitespace-separated tokens of one production, threading the
(terminals, nonTerminals) pair. -/
def classifyToks (acc : List String × List String) (toks : List String) :
    List String × List String :=
  toks.foldl
    (fun (a : List String × List String) sym =>
      if pyIsUpper sym then (a.1, setInsert a.2 sym) else (setInsert a.1 sym, a.2))
    acc

/-- `_extract_symbols`: every LHS is a non-terminal; every RHS token is
classified by `isupper`; `$` is always added to the terminals. -/
def extractSymbols (g : Grammar) : List String × List String :=
  let p := g.foldl
    (fun (a : List String × List String) entry =>
      entry.2.foldl (fun b production => classifyToks b (splitWS production))
        (a.1, setInsert a.2 entry.1))
    ([], [])
  (setInsert p.1 "$", p.2)

/-! ### FIRST sets (`compute_first_sets`)

The Python `first(symbol)` is memoized recursion on the mutable
`self.first` (a `defaultdict(set)`), modelled as a total function
`String → List String` threaded through every call; the cache is written
only after a call completes, exactly as in the source.  The unbounded
recursion depth is the fuel. -/

abbrev SymMap := String → List String

/-- The inner `for sym in production.split()` loop of `first`: breaks on
`sym == symbol`, unions `first(sym) - {ε}`, breaks unless ε ∈ first(sym);
the `for ... else` adds ε when the loop runs to completion.  `rec` is the
recursive call at one fuel less. -/
def firstScan (X : String) (rec : SymMap → String → Option (SymMap × List String)) :
    SymMap → List String → List String → Option (SymMap × List String)
  | mem, acc, [] => some (mem, setInsert acc "ε")
  | mem, acc, sym :: rest =>
    if sym = X then some (mem, acc)
    else
      match rec mem sym with
      | none => none
      | some (m1, sf) =>
        let acc1 := listUnion acc (listRemove sf "ε")
        if "ε" ∈ sf then firstScan X rec m1 acc1 rest else some (m1, acc1)

/-- The `for production in self.grammar[symbol]` loop of `first`. -/
def firstOverProds (X : String)
    (rec : SymMap → String → Option (SymMap × List String)) :
    SymMap → List String → List String → Option (SymMap × List String)
  | mem, acc, [] => some (mem, acc)
  | mem, acc, p :: ps =>
    if p = "" then firstOverProds X rec mem (setInsert acc "ε") ps
    else
      match firstScan X rec mem acc (splitWS p) with
      | none => none
      | some (m1, a1) => firstOverProds X rec m1 a1 ps

/-- `first(symbol)`: terminals yield themselves; a non-empty cached set is
returned; otherwise the productions are scanned and the result cached. -/
def firstSym (g : Grammar) (terms : List String) :
    Nat → SymMap → String → Option (SymMap × List String)
  | 0, _, _ => none
  | n + 1, mem, symbol =>
    if symbol ∈ terms then some (mem, [symbol])
    else if mem symbol ≠ [] then some (mem, mem symbol)
    else
      match firstOverProds symbol (firstSym g terms n) mem [] (prods g symbol) with
      | none => none
      | some (m1, result) => some (Function.update m1 symbol result, result)

/-- `compute_first_sets`: run `first` on every non-terminal, threading the
cache; the result is the final cache. -/
def computeFirstSets (fuel : Nat) (g : Grammar) (terms nts : List String) :
    Option SymMap :=
  nts.foldl
    (fun acc nt =>
      match acc with
      | none => none
      | some mem =>
        match firstSym g terms fuel mem nt with
        | none => none
        | some (m1, _) => some m1)
    (some (fun _ => []))

/-! ### FOLLOW sets (`compute_follow_sets`)

`trailer` is either a set owned by the loop (`owned`) or a live reference to
a FIRST entry (`aliasF`), created by the Python line
`trailer = self.first[symbol]`; a later `trailer.update(...)` on an aliased
trailer mutates that FIRST entry in place. -/

inductive Trailer
  | owned (s : List String)
  | aliasF (key : String)
  deriving DecidableEq

/-- The first/follow tables as one state. -/
structure FFState where
  first : SymMap
  follow : SymMap

def trailerVal (st : FFState) : Trailer → List String
  | .owned s => s
  | .aliasF k => st.first k

/-- One symbol of the right-to-left scan of a production's RHS
(the body of `for symbol in reversed(production.split())`).  Returns the
updated tables, the new trailer, and the `changed` flag. -/
def followSymStep (nts : List String) (acc : FFState × Trailer × Bool)
    (symbol : String) : FFState × Trailer × Bool :=
  let st := acc.1
  let tr := acc.2.1
  let changed := acc.2.2
  if symbol ∈ nts then
    let tv := trailerVal st tr
    let (st1, changed1) :=
      if listDiff tv (st.follow symbol) ≠ [] then
        (⟨st.first, Function.update st.follow symbol (listUnion (st.follow symbol) tv)⟩, true)
      else (st, changed)
    if "ε" ∈ st1.first symbol then
      let add := listRemove (st1.first symbol) "ε"
      match tr with
      | .owned s => (st1, .owned (listUnion s add), changed1)
      | .aliasF k =>
        (⟨Function.update st1.first k (listUnion (st1.first k) add), st1.follow⟩,
          .aliasF k, changed1)
    else (st1, .aliasF symbol, changed1)
  else (st, .owned [symbol], changed)

/-- One production of one rule: fresh trailer `follow(lhs).copy()`, then the
reversed scan. -/
def followProd (nts : List String) (lhs : String) (acc : FFState × Bool)
    (production : String) : FFState × Bool :=
  let init : FFState × Trailer × Bool := (acc.1, .owned (acc.1.follow lhs), acc.2)
  let r := (splitWS production).reverse.foldl (followSymStep nts) init
  (r.1, r.2.2)

/-- One full pass over every rule and production. -/
def followPass (g : Grammar) (nts : List String) (st : FFState) : FFState × Bool :=
  g.foldl
    (fun acc entry => entry.2.foldl (followProd nts entry.1) acc)
    (st, false)

/-- The `while changed` fixpoint, fuelled. -/
def followFix (g : Grammar) (nts : List String) : Nat → FFState → Option FFState
  | 0, _ => none
  | n + 1, st =>
    let (st1, changed) := followPass g nts st
    if changed then followFix g nts n st1 else some st1

/-- `compute_follow_sets`: seed `FOLLOW(start) ∋ $`, then iterate to a
fixpoint.  Returns the final (first, follow) tables — the first table can
have been mutated through aliased trailers. -/
def computeFollowSets (fuel : Nat) (g : Grammar) (nts : List String)
    (start : String) (first : SymMap) : Option FFState :=
  let follow0 : SymMap := Function.update (fun _ => []) start ["$"]
  followFix g nts fuel ⟨first, follow0⟩

/-! ### LR(0) items and the automaton (`construct_lr0_items`) -/

/-- An item `(lhs, before_dot, after_dot)`: the consumed prefix is kept as a
string (as in the source), the remainder as the token list. -/
abbrev Item := String × String × List String

/-- One pass of the closure loop: scan the current item list, adding the
fresh items `(N, "", production)` for every non-terminal `N` just after a
dot. -/
def closureStep (g : Grammar) (nts : List String) (cs : List Item) : List Item :=
  cs.foldl
    (fun acc item =>
      match item.2.2 with
      | [] => acc
      | x :: _ =>
        if x ∈ nts then
          (prods g x).foldl (fun a p => setInsert a (x, "", splitWS p)) acc
        else acc)
    cs

/-- The `while changed` closure fixpoint, fuelled. -/
def closureFix (g : Grammar) (nts : List String) : Nat → List Item → Option (List Item)
  | 0, _ => none
  | n + 1, cs =>
    let cs1 := closureStep g nts cs
    if cs1 = cs then some cs else closureFix g nts n cs1

/-- `goto(state, symbol)`: advance the dot past `symbol`, then close;
an empty collected set stays empty (no closure). -/
def gotoFn (g : Grammar) (nts : List String) (cf : Nat) (state : List Item)
    (symbol : String) : Option (List Item) :=
  let moved := state.foldl
    (fun acc item =>
      match item with
      | (lhs, before, after) =>
        match after with
        | [] => acc
        | x :: rest =>
          if x = symbol then setInsert acc (lhs, trimStr (before ++ " " ++ x), rest)
          else acc)
    []
  if moved = [] then some [] else closureFix g nts cf moved

/-- A parse-table row: ACTION (terminal-keyed) and GOTO (non-terminal-keyed)
association lists.  Shift targets and goto targets are state indices. -/
inductive PAction
  | shift (n : Nat)
  | reduce (lhs : String) (idx : Int)
  | accept
  deriving DecidableEq

structure Entry where
  action : List (String × PAction)
  goto : List (String × Nat)
  deriving DecidableEq

def emptyEntry : Entry := ⟨[], []⟩

/-- Set-equality of item lists: the identity `frozenset` gives states. -/
def listSetEq {α} [DecidableEq α] (a b : List α) : Bool :=
  decide (∀ x ∈ a, x ∈ b) && decide (∀ x ∈ b, x ∈ a)

/-- `state_map[frozenset(s)]`: index of the first set-equal state. -/
def findStateIdx : List (List Item) → List Item → Option Nat
  | [], _ => none
  | t :: rest, s =>
    if listSetEq t s then some 0 else (findStateIdx rest s).map (· + 1)

/-- The `for symbol in self.terminals | self.non_terminals` loop of one BFS
iteration: computes `goto` for each symbol, registers newly discovered
states, and records the shift/goto transitions in the row being built. -/
def processSymbols (g : Grammar) (terms nts : List String) (cf : Nat)
    (cur : List Item) :
    List String → List (List Item) × List (List Item) × Entry →
    Option (List (List Item) × List (List Item) × Entry)
  | [], acc => some acc
  | symbol :: syms, (states, queue, entry) =>
    match gotoFn g nts cf cur symbol with
    | none => none
    | some next =>
      if next = [] then processSymbols g terms nts cf cur syms (states, queue, entry)
      else
        match findStateIdx states next with
        | some j =>
          let entry1 :=
            if symbol ∈ terms then { entry with action := upsertS entry.action symbol (.shift j) }
            else { entry with goto := upsertS entry.goto symbol j }
          processSymbols g terms nts cf cur syms (states, queue, entry1)
        | none =>
          let j := states.length
          let entry1 :=
            if symbol ∈ terms then { entry with action := upsertS entry.action symbol (.shift j) }
            else { entry with goto := upsertS entry.goto symbol j }
          processSymbols g terms nts cf cur syms
            (states ++ [next], queue ++ [next], entry1)

/-- The BFS loop (`while state_queue`), fuelled: pop the head, build its
table row over all symbols, store it under the state's index. -/
def constructAux (g : Grammar) (terms nts : List String) (cf : Nat)
    (syms : List String) :
    Nat → List (List Item) × List (List Item) × List (Nat × Entry) →
    Option (List (List Item) × List (Nat × Entry))
  | 0, _ => none
  | fuel + 1, (states, queue, table) =>
    match queue with
    | [] => some (states, table)
    | cur :: rest =>
      match findStateIdx states cur with
      | none => none
      | some idx =>
        match processSymbols g terms nts cf cur syms (states, rest, emptyEntry) with
        | none => none
        | some (states1, queue1, entry) =>
          constructAux g terms nts cf syms fuel (states1, queue1, upsertS table idx entry)

/-- `construct_lr0_items`: start state = closure of the augmented item,
then BFS discovery.  Returns the discovered states (in index order) and the
transition part of the parse table. -/
def constructLR0Items (bfsFuel cf : Nat) (g : Grammar) (terms nts : List String)
    (start : String) : Option (List (List Item) × List (Nat × Entry)) :=
  match (prods g start).head? with
  | none => none
  | some p0 =>
    match closureFix g nts cf [(start, "", splitWS p0)] with
    | none => none
    | some s0 => constructAux g terms nts cf (listUnion terms nts) bfsFuel ([s0], [s0], [])

/-! ### SLR table construction (`build_slr_parsing_table`) -/

/-- `prod_idx`: index of the first production equal to the space-normalized
`before_dot`, or Python's `-1` sentinel when none matches. -/
def prodIdxOf (ps : List String) (before : String) : Int :=
  match ps.findIdx? (fun p => joinSp (splitWS before) = p) with
  | some i => Int.ofNat i
  | none => -1

/-- Process one item of a state: a completed augmented-start item writes
`ACTION[$] = accept` unconditionally; any other completed item writes
`reduce` into every unoccupied `FOLLOW(lhs)` cell; items with symbols after
the dot change nothing. -/
def applyItem (start : String) (g : Grammar) (followM : SymMap)
    (am : List (String × PAction)) (item : Item) : List (String × PAction) :=
  match item with
  | (lhs, before, after) =>
    if after = [] then
      if lhs = start then upsertS am "$" .accept
      else
        let pidx := prodIdxOf (prods g lhs) before
        (followM lhs).foldl (fun a symbol => insertIfAbsent a symbol (.reduce lhs pidx)) am
    else am

/-- The `for state_idx, state in enumerate(self.states)` loop, with `k` the
index of the head state: reads the automaton's row, folds `applyItem` over
the state's items, and writes the row back. -/
def buildSLRAux (start : String) (g : Grammar) (followM : SymMap) :
    List (List Item) → Nat → List (Nat × Entry) → Option (List (Nat × Entry))
  | [], _, table => some table
  | st :: rest, k, table =>
    match lookupS table k with
    | none => none
    | some e =>
      buildSLRAux start g followM rest (k + 1)
        (upsertS table k { e with action := st.foldl (applyItem start g followM) e.action })

/-- `build_slr_parsing_table` over the automaton output. -/
def buildSLRParsingTable (start : String) (g : Grammar) (followM : SymMap)
    (states : List (List Item)) (table : List (Nat × Entry)) :
    Option (List (Nat × Entry)) :=
  buildSLRAux start g followM states 0 table

/-! ### The pipeline (`SLRParser.__init__`) -/

structure Parser where
  grammar : Grammar
  startSymbol : String
  terminals : List String
  nonTerminals : List String
  first : SymMap
  follow : SymMap
  states : List (List Item)
  table : List (Nat × Entry)

/-- The constructor pipeline: parse, augment, extract symbols, FIRST,
FOLLOW, automaton, table — in source order.  The `first` field is the table
*after* `compute_follow_sets` ran (which may have mutated it). -/
def mkParser (fuel : Nat) (raw : String) : Option Parser :=
  match parseGrammar raw with
  | none => none
  | some g0 =>
    match startOf g0 with
    | none => none
    | some start0 =>
      let (g, start) := augment g0 start0
      let (terms, nts) := extractSymbols g
      match computeFirstSets fuel g terms nts with
      | none => none
      | some first0 =>
        match computeFollowSets fuel g nts start first0 with
        | none => none
        | some ff =>
          match constructLR0Items fuel fuel g terms nts start with
          | none => none
          | some (states, table0) =>
            match buildSLRParsingTable start g ff.follow states table0 with
            | none => none
            | some table =>
              some ⟨g, start, terms, nts, ff.first, ff.follow, states, table⟩

/-! ### The shift-reduce engine (`parse_string`)

The stack is kept top-first internally; trace records store it bottom-first
(`str(stack)` order).  Error/detail strings are modelled by the structured
`EMsg`/`StepTag` carrying exactly the data interpolated into the Python
f-strings.  A `crash` models an uncaught Python exception
(IndexError/KeyError), which no claim exercises. -/

inductive StackEl
  | st (n : Nat)
  | sym (s : String)
  deriving DecidableEq

inductive EMsg
  | noAction (tok : String) (state : Nat)
  | noGoto (lhs : String) (state : Nat)
  | accepted
  deriving DecidableEq

inductive StepTag
  | initRec
  | shiftT (tok : String) (target : Nat)
  | reduceT (lhs : String) (production : String) (popped : Nat) (gotoSt : Nat)
  | acceptT
  | errorT (m : EMsg)
  deriving DecidableEq

structure TraceRec where
  step : Nat
  tag : StepTag
  stack : List StackEl
  input : List String
  deriving DecidableEq

structure Cfg where
  stack : List StackEl
  toks : List String
  pos : Nat
  deriving DecidableEq

inductive StepRes
  | cont (c : Cfg) (r : TraceRec)
  | halt (ok : Bool) (m : EMsg) (r : TraceRec)
  | crash
  deriving DecidableEq

/-- Tokenization: surround every occurrence of each terminal (longest
first, `$` excluded) with spaces, split on whitespace, append `$`. -/
def tokenize (terms : List String) (input : String) : List String :=
  let ts := sortLenDesc (listRemove terms "$")
  let s := ts.foldl (fun acc t => replaceStr acc t (" " ++ t ++ " ")) input
  splitWS s ++ ["$"]

/-- One iteration of the `while True` loop of `parse_string`. -/
def engineStep (g : Grammar) (tbl : List (Nat × Entry)) (stepN : Nat) (c : Cfg) :
    StepRes :=
  match c.stack with
  | .st s :: _ =>
    match c.toks.get? c.pos with
    | none => .crash
    | some a =>
      match lookupS tbl s with
      | none => .crash
      | some e =>
        match lookupS e.action a with
        | none =>
          .halt false (.noAction a s)
            ⟨stepN, .errorT (.noAction a s), c.stack.reverse, c.toks.drop c.pos⟩
        | some (.shift n) =>
          let stack1 := .st n :: .sym a :: c.stack
          .cont ⟨stack1, c.toks, c.pos + 1⟩
            ⟨stepN, .shiftT a n, stack1.reverse, c.toks.drop (c.pos + 1)⟩
        | some (.reduce lhs idx) =>
          match pyIndex (prods g lhs) idx with
          | none => .crash
          | some production =>
            let k := (splitWS production).length
            match c.stack.drop (2 * k) with
            | .st t :: rest =>
              let pushed := StackEl.sym lhs :: StackEl.st t :: rest
              match lookupS tbl t with
              | none => .crash
              | some e2 =>
                match lookupS e2.goto lhs with
                | none =>
                  .halt false (.noGoto lhs t)
                    ⟨stepN, .errorT (.noGoto lhs t), pushed.reverse, c.toks.drop c.pos⟩
                | some gs =>
                  let stack1 := StackEl.st gs :: pushed
                  .cont ⟨stack1, c.toks, c.pos⟩
                    ⟨stepN, .reduceT lhs production k gs, stack1.reverse, c.toks.drop c.pos⟩
            | _ => .crash
        | some .accept =>
          .halt true .accepted ⟨stepN, .acceptT, c.stack.reverse, c.toks.drop c.pos⟩
  | _ => .crash

/-- Run the engine, appending one trace record per step. -/
def runEngine (g : Grammar) (tbl : List (Nat × Entry)) :
    Nat → Cfg → Nat → List TraceRec → Option (Bool × EMsg × List TraceRec)
  | 0, _, _, _ => none
  | fuel + 1, c, stepN, recs =>
    match engineStep g tbl stepN c with
    | .crash => none
    | .halt ok m r => some (ok, m, recs ++ [r])
    | .cont c1 r => runEngine g tbl fuel c1 (stepN + 1) (recs ++ [r])

/-- `parse_string`: tokenize, seed stack `[0]`, record the Initialize step,
loop. -/
def parseInput (fuel : Nat) (p : Parser) (input : String) :
    Option (Bool × EMsg × List TraceRec) :=
  let toks := tokenize p.terminals input
  runEngine p.grammar p.table fuel ⟨[.st 0], toks, 0⟩ 1
    [⟨0, .initRec, [.st 0], toks⟩]

/-! ### Spec-side predicate for claim C5 -/

/-- Modelled from the spec's words (§3): a token "consists entirely of
uppercase letters (no digits, punctuation, or mixed case)". -/
def specAllUpperLetters (s : String) : Bool :=
  s ≠ "" && s.data.all (fun c => c.isUpper)

/-! ### Predicates used by the theorems -/

/-- Does some member of `l` equal `s` as a set (the automaton's state
identity)? -/
def containsSetEq (l : List (List Item)) (s : List Item) : Bool :=
  l.any (fun t => listSetEq t s)

/-- The condition under which `build_slr_parsing_table` writes `accept`:
the state holds a completed item whose LHS is the augmented start symbol. -/
def hasCompletedStart (start : String) (st : List Item) : Bool :=
  st.any (fun it => decide (it.1 = start) && decide (it.2.2 = []))

/-- A row of the automaton's transition table is well formed for a state
count `n`: every ACTION value is a shift with target `< n`, every GOTO
target is `< n`. -/
def EntryOk (e : Entry) (n : Nat) : Prop :=
  (∀ t a, lookupS e.action t = some a → ∃ m, a = PAction.shift m ∧ m < n) ∧
  (∀ A j, lookupS e.goto A = some j → j < n)

/-- A state's nonempty goto images are all present in `sts`. -/
def GoodState (g : Grammar) (nts : List String) (cf : Nat) (syms : List String)
    (s : List Item) (sts : List (List Item)) : Prop :=
  ∀ X ∈ syms, ∀ ns, gotoFn g nts cf s X = some ns → ns ≠ [] →
    containsSetEq sts ns = true

/-- Does some rule of `g` have `x` as a token of some production? -/
def occursInRHS (g : Grammar) (x : String) : Prop :=
  ∃ pr ∈ g, ∃ p ∈ pr.2, x ∈ splitWS p

/-- The alternatives of the last rule in `rs` whose LHS is `l` (used to
state the duplicate-LHS replacement behaviour of `parse_grammar`). -/
def lastMatch (l : String) (rs : List (String × List String)) : Option (List String) :=
  rs.foldl (fun acc r => if r.1 = l then some r.2 else acc) none

/-! ### Concrete instances for counterexamples and witnesses -/

/-- The grammar text `S -> B C ; B -> b | ; C -> c` after parsing and
augmentation (checked against `parseGrammar` in the theorems). -/
def c1g : Grammar := [("S", ["B C"]), ("B", ["b", ""]), ("C", ["c"]), ("S" ++ apos, ["S"])]

def c1nts : List String := ["S", "B", "C", "S" ++ apos]

/-- FIRST as `compute_first_sets` leaves it for `c1g`. -/
def c1firstComputed : SymMap :=
  (computeFirstSets 20 c1g ["b", "c", "$"] c1nts).getD (fun _ => [])

/-- The (first, follow) state after `compute_follow_sets` for `c1g`. -/
def c1afterFollow : Option FFState :=
  computeFollowSets 20 c1g c1nts ("S" ++ apos) c1firstComputed

/-- The grammar text `A -> B ; B -> A` after parsing and augmentation. -/
def c2g : Grammar := [("A", ["B"]), ("B", ["A"]), ("A" ++ apos, ["A"])]

def c2nts : List String := ["A", "B", "A" ++ apos]

/-- The grammar text `S -> S $ | a` after parsing and augmentation. -/
def c3g : Grammar := [("S", ["S $", "a"]), ("S" ++ apos, ["S"])]

/-- Automaton of `c3g` (state 2 holds both the completed start item and a
shift on `$`). -/
def c3auto : Option (List (List Item) × List (Nat × Entry)) :=
  constructLR0Items 20 20 c3g ["$", "a"] ["S", "S" ++ apos] ("S" ++ apos)

/-- The final SLR table of `c3g`, via the full pipeline. -/
def c3final : Option (List (Nat × Entry)) := (mkParser 20 "S -> S $ | a").map Parser.table

/-- Full pipeline and parse run for the C4 counterexample: grammar
`S -> a  b | c` (two spaces inside the first alternative) on input `ab`. -/
def c4run : Option (Bool × EMsg × List TraceRec) :=
  (mkParser 30 "S -> a  b | c").bind (fun p => parseInput 30 p "ab")

/-- The grammar text `S -> A1 b` after parsing and augmentation. -/
def c5g : Grammar := [("S", ["A1 b"]), ("S" ++ apos, ["S"])]

/-- Witness grammar `S -> a` after parsing and augmentation. -/
def cwg : Grammar := [("S", ["a"]), ("S" ++ apos, ["S"])]

/-- Automaton of the witness grammar `S -> a`. -/
def cwauto : Option (List (List Item) × List (Nat × Entry)) :=
  constructLR0Items 20 20 cwg ["a", "$"] ["S", "S" ++ apos] ("S" ++ apos)

/-- The discovered states of the witness grammar, written out. -/
def cwstates : List (List Item) :=
  [[("S" ++ apos, "", ["S"]), ("S", "", ["a"])],
   [("S", "a", [])],
   [("S" ++ apos, "S", [])]]

/-- The automaton transition table of the witness grammar, written out. -/
def cwtable : List (Nat × Entry) :=
  [(0, ⟨[("a", .shift 1)], [("S", 2)]⟩),
   (1, ⟨[], []⟩),
   (2, ⟨[], []⟩)]

/-- A FOLLOW map for the witness grammar (`$` follows everything). -/
def cwfollow : SymMap := fun _ => ["$"]

/-- The final SLR table of the witness grammar, written out. -/
def cwfinalTable : List (Nat × Entry) :=
  [(0, ⟨[("a", .shift 1)], [("S", 2)]⟩),
   (1, ⟨[("$", .reduce "S" 0)], []⟩),
   (2, ⟨[("$", .accept)], []⟩)]

/-! ## Lemmas and theorems -/

/-! ### Association-list and list-set basics -/

theorem mem_setInsert {α} [DecidableEq α] (l : List α) (x y : α) :
    y ∈ setInsert l x ↔ y = x ∨ y ∈ l := by
  unfold setInsert
  split
  · constructor
    · exact fun h => Or.inr h
    · rintro (rfl | h)
      · assumption
      · exact h
  · simp [or_comm]

theorem lookupS_upsertS_self {κ α : Type} [DecidableEq κ] (m : List (κ × α)) (k : κ) (v : α) :
    lookupS (upsertS m k v) k = some v := by
  induction m with
  | nil => simp [upsertS, lookupS]
  | cons p rest ih =>
    obtain ⟨k', v'⟩ := p
    by_cases h : k' = k
    · subst h
      simp [upsertS, lookupS]
    · simp [upsertS, lookupS, h, ih]

theorem lookupS_upsertS_ne {κ α : Type} [DecidableEq κ] (m : List (κ × α)) (k k' : κ) (v : α)
    (h : k' ≠ k) : lookupS (upsertS m k v) k' = lookupS m k' := by
  induction m with
  | nil => simp [upsertS, lookupS, Ne.symm h]
  | cons p rest ih =>
    obtain ⟨k0, v0⟩ := p
    by_cases h0 : k0 = k
    · subst h0
      simp [upsertS, lookupS, Ne.symm h]
    · simp only [upsertS, if_neg h0, lookupS]
      split
      · rfl
      · exact ih

theorem upsertS_ne_nil {κ α : Type} [DecidableEq κ] (m : List (κ × α)) (k : κ) (v : α) :
    upsertS m k v ≠ [] := by
  cases m with
  | nil => simp [upsertS]
  | cons p rest =>
    obtain ⟨k0, v0⟩ := p
    unfold upsertS
    split <;> simp

theorem lookupS_mem {κ α : Type} [DecidableEq κ] {m : List (κ × α)} {k : κ} {v : α}
    (h : lookupS m k = some v) : (k, v) ∈ m := by
  induction m with
  | nil => simp [lookupS] at h
  | cons p rest ih =>
    obtain ⟨k0, v0⟩ := p
    by_cases h0 : k0 = k
    · subst h0
      simp [lookupS] at h
      simp [h]
    · simp only [lookupS, if_neg h0] at h
      exact List.mem_cons_of_mem _ (ih h)

theorem mem_upsertS {κ α : Type} [DecidableEq κ] {m : List (κ × α)} {k : κ} {v : α}
    {p : κ × α} (h : p ∈ upsertS m k v) : p ∈ m ∨ p = (k, v) := by
  induction m with
  | nil => simp [upsertS] at h; simp [h]
  | cons q rest ih =>
    obtain ⟨k0, v0⟩ := q
    by_cases h0 : k0 = k
    · subst h0
      simp only [upsertS, if_pos rfl] at h
      rcases List.mem_cons.1 h with h1 | h1
      · exact Or.inr h1
      · exact Or.inl (List.mem_cons_of_mem _ h1)
    · simp only [upsertS, if_neg h0] at h
      rcases List.mem_cons.1 h with h1 | h1
      · exact Or.inl (h1 ▸ List.mem_cons_self _ _)
      · rcases ih h1 with h2 | h2
        · exact Or.inl (List.mem_cons_of_mem _ h2)
        · exact Or.inr h2

theorem lookupS_insertIfAbsent_occupied {κ α : Type} [DecidableEq κ]
    {m : List (κ × α)} {k : κ} {v : α} (h : lookupS m k = some v) (w : α) :
    insertIfAbsent m k w = m := by
  unfold insertIfAbsent
  rw [h]

theorem lookupS_insertIfAbsent_self_none {κ α : Type} [DecidableEq κ]
    {m : List (κ × α)} {k : κ} (h : lookupS m k = none) (w : α) :
    lookupS (insertIfAbsent m k w) k = some w := by
  unfold insertIfAbsent
  rw [h]
  exact lookupS_upsertS_self m k w

theorem lookupS_insertIfAbsent_ne {κ α : Type} [DecidableEq κ]
    (m : List (κ × α)) (k k' : κ) (w : α) (h : k' ≠ k) :
    lookupS (insertIfAbsent m k w) k' = lookupS m k' := by
  unfold insertIfAbsent
  cases hl : lookupS m k with
  | some v => rfl
  | none => exact lookupS_upsertS_ne m k k' w h

theorem listSetEq_refl {α} [DecidableEq α] (s : List α) : listSetEq s s = true := by
  simp [listSetEq]

theorem containsSetEq_append_left {sts Δ : List (List Item)} {ns : List Item}
    (h : containsSetEq sts ns = true) : containsSetEq (sts ++ Δ) ns = true := by
  simp only [containsSetEq, List.any_append, Bool.or_eq_true]
  exact Or.inl (by simpa [containsSetEq] using h)

theorem findStateIdx_some_contains {sts : List (List Item)} {s : List Item} {j : Nat}
    (h : findStateIdx sts s = some j) : containsSetEq sts s = true := by
  induction sts generalizing j with
  | nil => simp [findStateIdx] at h
  | cons t rest ih =>
    by_cases he : listSetEq t s
    · simp [containsSetEq, he]
    · simp only [findStateIdx, if_neg he, Option.map_eq_some'] at h
      obtain ⟨j', hj', rfl⟩ := h
      have := ih hj'
      simp only [containsSetEq, List.any_cons, Bool.or_eq_true]
      exact Or.inr (by simpa [containsSetEq] using this)

theorem findStateIdx_lt {sts : List (List Item)} {s : List Item} {j : Nat}
    (h : findStateIdx sts s = some j) : j < sts.length := by
  induction sts generalizing j with
  | nil => simp [findStateIdx] at h
  | cons t rest ih =>
    by_cases he : listSetEq t s
    · simp only [findStateIdx, if_pos he, Option.some.injEq] at h
      subst h
      simp
    · simp only [findStateIdx, if_neg he, Option.map_eq_some'] at h
      obtain ⟨j', hj', rfl⟩ := h
      have := ih hj'
      simp only [List.length_cons]
      omega

/-! ### Table-builder lemmas -/

theorem redFold_cell (r : PAction) (t : String) (fl : List String) :
    ∀ am : List (String × PAction),
      lookupS (fl.foldl (fun a s => insertIfAbsent a s r) am) t = lookupS am t ∨
      (lookupS am t = none ∧
        lookupS (fl.foldl (fun a s => insertIfAbsent a s r) am) t = some r) := by
  induction fl with
  | nil => intro am; exact Or.inl rfl
  | cons s rest ih =>
    intro am
    simp only [List.foldl_cons]
    by_cases hts : t = s
    · subst hts
      cases hl : lookupS am t with
      | some v =>
        rw [lookupS_insertIfAbsent_occupied hl r]
        rcases ih am with h2 | h2
        · exact Or.inl (h2.trans hl)
        · rw [hl] at h2
          exact absurd h2.1 (by simp)
      | none =>
        have h1 : lookupS (insertIfAbsent am t r) t = some r :=
          lookupS_insertIfAbsent_self_none hl r
        rcases ih (insertIfAbsent am t r) with h2 | h2
        · exact Or.inr ⟨rfl, h2.trans h1⟩
        · exact Or.inr ⟨rfl, h2.2⟩
    · have h1 : lookupS (insertIfAbsent am s r) t = lookupS am t :=
        lookupS_insertIfAbsent_ne am s t r hts
      rcases ih (insertIfAbsent am s r) with h2 | h2
      · exact Or.inl (h2.trans h1)
      · exact Or.inr ⟨h1.symm.trans h2.1, h2.2⟩

theorem applyItem_preserve (start : String) (g : Grammar) (fm : SymMap)
    (am : List (String × PAction)) (it : Item) (t : String) (v : PAction)
    (h : lookupS am t = some v) :
    lookupS (applyItem start g fm am it) t = some v ∨
    (t = "$" ∧ lookupS (applyItem start g fm am it) t = some .accept) := by
  obtain ⟨lhs, before, after⟩ := it
  unfold applyItem
  by_cases ha : after = []
  · simp only [if_pos ha]
    by_cases hs : lhs = start
    · simp only [if_pos hs]
      by_cases ht : t = "$"
      · subst ht
        exact Or.inr ⟨rfl, lookupS_upsertS_self am "$" .accept⟩
      · exact Or.inl ((lookupS_upsertS_ne am "$" t .accept ht).trans h)
    · simp only [if_neg hs]
      rcases redFold_cell (.reduce lhs (prodIdxOf (prods g lhs) before)) t (fm lhs) am
        with h1 | h1
      · exact Or.inl (h1.trans h)
      · rw [h] at h1
        exact absurd h1.1 (by simp)
  · simp only [if_neg ha]
    exact Or.inl h

theorem applyItem_accept_iff (start : String) (g : Grammar) (fm : SymMap)
    (am : List (String × PAction)) (it : Item) (t : String) :
    lookupS (applyItem start g fm am it) t = some .accept ↔
    (lookupS am t = some .accept ∨ (t = "$" ∧ it.1 = start ∧ it.2.2 = [])) := by
  obtain ⟨lhs, before, after⟩ := it
  unfold applyItem
  by_cases ha : after = []
  · simp only [if_pos ha]
    by_cases hs : lhs = start
    · simp only [if_pos hs]
      by_cases ht : t = "$"
      · subst ht
        simp [lookupS_upsertS_self, ha, hs]
      · rw [lookupS_upsertS_ne am "$" t .accept ht]
        simp [ht]
    · simp only [if_neg hs]
      rcases redFold_cell (.reduce lhs (prodIdxOf (prods g lhs) before)) t (fm lhs) am
        with h1 | h1
      · rw [h1]
        simp [hs]
      · rw [h1.2, h1.1]
        simp [hs]
  · simp only [if_neg ha]
    simp [ha]

theorem hasCompletedStart_cons (start : String) (it : Item) (st : List Item) :
    hasCompletedStart start (it :: st) = true ↔
    ((it.1 = start ∧ it.2.2 = []) ∨ hasCompletedStart start st = true) := by
  simp [hasCompletedStart, List.any_cons]

theorem itemsFold_preserve (start : String) (g : Grammar) (fm : SymMap)
    (st : List Item) :
    ∀ (am : List (String × PAction)) (t : String) (v : PAction),
      lookupS am t = some v →
      lookupS (st.foldl (applyItem start g fm) am) t = some v ∨
      (t = "$" ∧ lookupS (st.foldl (applyItem start g fm) am) t = some .accept) := by
  induction st with
  | nil => intro am t v h; exact Or.inl h
  | cons it rest ih =>
    intro am t v h
    simp only [List.foldl_cons]
    rcases applyItem_preserve start g fm am it t v h with h1 | h1
    · exact ih _ t v h1
    · rcases ih _ t .accept h1.2 with h2 | h2
      · exact Or.inr ⟨h1.1, h2⟩
      · exact Or.inr h2

theorem itemsFold_accept_iff (start : String) (g : Grammar) (fm : SymMap)
    (st : List Item) :
    ∀ (am : List (String × PAction)) (t : String),
      lookupS (st.foldl (applyItem start g fm) am) t = some .accept ↔
      (lookupS am t = some .accept ∨ (t = "$" ∧ hasCompletedStart start st = true)) := by
  induction st with
  | nil =>
    intro am t
    simp [hasCompletedStart]
  | cons it rest ih =>
    intro am t
    simp only [List.foldl_cons]
    rw [ih, applyItem_accept_iff, hasCompletedStart_cons]
    tauto

theorem buildSLRAux_keeps_lt (start : String) (g : Grammar) (fm : SymMap)
    (sts : List (List Item)) :
    ∀ (k : Nat) (tb tb' : List (Nat × Entry)),
      buildSLRAux start g fm sts k tb = some tb' →
      ∀ i, i < k → lookupS tb' i = lookupS tb i := by
  induction sts with
  | nil =>
    intro k tb tb' h i _
    simp only [buildSLRAux, Option.some.injEq] at h
    rw [h]
  | cons st rest ih =>
    intro k tb tb' h i hik
    simp only [buildSLRAux] at h
    cases he : lookupS tb k with
    | none => rw [he] at h; exact absurd h (by simp)
    | some e =>
      rw [he] at h
      have h1 := ih (k + 1) _ tb' h i (by omega)
      rw [h1, lookupS_upsertS_ne tb k i _ (by omega)]

theorem buildSLRAux_lookup_at (start : String) (g : Grammar) (fm : SymMap)
    (sts : List (List Item)) :
    ∀ (k : Nat) (tb tb' : List (Nat × Entry)),
      buildSLRAux start g fm sts k tb = some tb' →
      ∀ (j : Nat) (st : List Item), sts.get? j = some st →
        ∃ e, lookupS tb (k + j) = some e ∧
          lookupS tb' (k + j) =
            some { e with action := st.foldl (applyItem start g fm) e.action } := by
  induction sts with
  | nil => intro k tb tb' _ j st hj; simp at hj
  | cons st0 rest ih =>
    intro k tb tb' h j st hj
    simp only [buildSLRAux] at h
    cases he : lookupS tb k with
    | none => rw [he] at h; exact absurd h (by simp)
    | some e0 =>
      rw [he] at h
      cases j with
      | zero =>
        simp only [List.get?] at hj
        injection hj with hj
        subst hj
        refine ⟨e0, by simpa using he, ?_⟩
        have h1 := buildSLRAux_keeps_lt start g fm rest (k + 1) _ tb' h k (by omega)
        rw [Nat.add_zero, h1, lookupS_upsertS_self]
      | succ j' =>
        simp only [List.get?] at hj
        obtain ⟨e, he1, he2⟩ := ih (k + 1) _ tb' h j' st hj
        rw [lookupS_upsertS_ne tb k (k + 1 + j') _ (by omega)] at he1
        have harith : k + (j' + 1) = k + 1 + j' := by omega
        rw [harith]
        exact ⟨e, he1, he2⟩

theorem buildSLRAux_preserve (start : String) (g : Grammar) (fm : SymMap)
    (sts : List (List Item)) :
    ∀ (k : Nat) (tb tb' : List (Nat × Entry)),
      buildSLRAux start g fm sts k tb = some tb' →
      ∀ (i : Nat) (e : Entry), lookupS tb i = some e →
        ∃ e', lookupS tb' i = some e' ∧ e'.goto = e.goto ∧
          ∀ (t : String) (v : PAction), lookupS e.action t = some v →
            (lookupS e'.action t = some v ∨
              (t = "$" ∧ lookupS e'.action t = some .accept)) := by
  induction sts with
  | nil =>
    intro k tb tb' h i e hi
    simp only [buildSLRAux, Option.some.injEq] at h
    subst h
    exact ⟨e, hi, rfl, fun t v hv => Or.inl hv⟩
  | cons st0 rest ih =>
    intro k tb tb' h i e hi
    simp only [buildSLRAux] at h
    by_cases hik : i = k
    · subst hik
      rw [hi] at h
      have h2 : lookupS (upsertS tb i
          { e with action := st0.foldl (applyItem start g fm) e.action }) i =
          some { e with action := st0.foldl (applyItem start g fm) e.action } :=
        lookupS_upsertS_self _ _ _
      obtain ⟨e'', h3, h4, h5⟩ := ih (i + 1) _ tb' h i _ h2
      refine ⟨e'', h3, h4, fun t v hv => ?_⟩
      rcases itemsFold_preserve start g fm st0 e.action t v hv with h6 | h6
      · exact h5 t v h6
      · rcases h5 t .accept h6.2 with h7 | h7
        · exact Or.inr ⟨h6.1, h7⟩
        · exact Or.inr h7
    · cases he : lookupS tb k with
      | none => rw [he] at h; exact absurd h (by simp)
      | some e0 =>
        rw [he] at h
        have h2 : lookupS (upsertS tb k
            { e0 with action := st0.foldl (applyItem start g fm) e0.action }) i =
            some e := by
          rw [lookupS_upsertS_ne tb k i _ hik]
          exact hi
        exact ih (k + 1) _ tb' h i e h2

/-! ### Automaton (BFS) invariants -/

theorem EntryOk_mono {e : Entry} {n n' : Nat} (h : EntryOk e n) (hle : n ≤ n') :
    EntryOk e n' :=
  ⟨fun t a ha => (h.1 t a ha).imp (fun _ hm => ⟨hm.1, lt_of_lt_of_le hm.2 hle⟩),
   fun A j hj => lt_of_lt_of_le (h.2 A j hj) hle⟩

theorem EntryOk_empty (n : Nat) : EntryOk emptyEntry n := by
  constructor
  · intro t a ha
    simp [emptyEntry, lookupS] at ha
  · intro A j hj
    simp [emptyEntry, lookupS] at hj

theorem EntryOk_writeAction {e : Entry} {n : Nat} (symbol : String) {j : Nat}
    (h : EntryOk e n) (hj : j < n) :
    EntryOk { e with action := upsertS e.action symbol (.shift j) } n := by
  constructor
  · intro t a ha
    by_cases ht : t = symbol
    · subst ht
      rw [lookupS_upsertS_self] at ha
      injection ha with ha
      exact ⟨j, ha.symm, hj⟩
    · rw [lookupS_upsertS_ne _ _ _ _ ht] at ha
      exact h.1 t a ha
  · exact h.2

theorem EntryOk_writeGoto {e : Entry} {n : Nat} (symbol : String) {j : Nat}
    (h : EntryOk e n) (hj : j < n) :
    EntryOk { e with goto := upsertS e.goto symbol j } n := by
  constructor
  · exact h.1
  · intro A j' hj'
    by_cases hA : A = symbol
    · subst hA
      rw [lookupS_upsertS_self] at hj'
      injection hj' with hj'
      exact hj' ▸ hj
    · rw [lookupS_upsertS_ne _ _ _ _ hA] at hj'
      exact h.2 A j' hj'

theorem GoodState_mono {g : Grammar} {nts : List String} {cf : Nat}
    {syms : List String} {s : List Item} {sts Δ : List (List Item)}
    (h : GoodState g nts cf syms s sts) : GoodState g nts cf syms s (sts ++ Δ) :=
  fun X hX ns hns hne => containsSetEq_append_left (h X hX ns hns hne)

theorem processSymbols_spec (g : Grammar) (terms nts : List String) (cf : Nat)
    (cur : List Item) (syms : List String) :
    ∀ (states queue : List (List Item)) (entry : Entry)
      (out : List (List Item) × List (List Item) × Entry),
      processSymbols g terms nts cf cur syms (states, queue, entry) = some out →
      ∃ Δ, out.1 = states ++ Δ ∧ out.2.1 = queue ++ Δ ∧
        (∀ X ∈ syms, ∀ ns, gotoFn g nts cf cur X = some ns → ns ≠ [] →
          containsSetEq out.1 ns = true) ∧
        (EntryOk entry states.length → EntryOk out.2.2 out.1.length) := by
  induction syms with
  | nil =>
    intro states queue entry out h
    simp only [processSymbols, Option.some.injEq] at h
    subst h
    exact ⟨[], by simp, by simp, by simp, by simp⟩
  | cons symbol rest ih =>
    intro states queue entry out h
    simp only [processSymbols] at h
    cases hg : gotoFn g nts cf cur symbol with
    | none => rw [hg] at h; exact absurd h (by simp)
    | some next =>
      simp only [hg] at h
      by_cases hne : next = []
      · rw [if_pos hne] at h
        obtain ⟨Δ, h1, h2, h3, h4⟩ := ih states queue entry out h
        refine ⟨Δ, h1, h2, ?_, h4⟩
        intro X hX ns hns hnsne
        rcases List.mem_cons.1 hX with rfl | hX'
        · rw [hg] at hns
          injection hns with hns
          exact absurd (hns ▸ hne) hnsne
        · exact h3 X hX' ns hns hnsne
      · rw [if_neg hne] at h
        cases hf : findStateIdx states next with
        | some j =>
          simp only [hf] at h
          obtain ⟨Δ, h1, h2, h3, h4⟩ := ih states queue _ out h
          refine ⟨Δ, h1, h2, ?_, ?_⟩
          · intro X hX ns hns hnsne
            rcases List.mem_cons.1 hX with rfl | hX'
            · rw [hg] at hns
              injection hns with hns
              subst hns
              rw [h1]
              exact containsSetEq_append_left (findStateIdx_some_contains hf)
            · exact h3 X hX' ns hns hnsne
          · intro hok
            refine h4 ?_
            have hj := findStateIdx_lt hf
            by_cases hterm : symbol ∈ terms
            · simp only [if_pos hterm]
              exact EntryOk_writeAction symbol hok hj
            · simp only [if_neg hterm]
              exact EntryOk_writeGoto symbol hok hj
        | none =>
          simp only [hf] at h
          obtain ⟨Δ', h1, h2, h3, h4⟩ := ih (states ++ [next]) (queue ++ [next]) _ out h
          refine ⟨[next] ++ Δ', by simpa using h1, by simpa using h2, ?_, ?_⟩
          · intro X hX ns hns hnsne
            rcases List.mem_cons.1 hX with rfl | hX'
            · rw [hg] at hns
              injection hns with hns
              subst hns
              rw [h1]
              refine containsSetEq_append_left ?_
              simp [containsSetEq, List.any_append, listSetEq_refl]
            · exact h3 X hX' ns hns hnsne
          · intro hok
            have hok1 : EntryOk entry (states ++ [next]).length :=
              EntryOk_mono hok (by simp)
            have hj : states.length < (states ++ [next]).length := by simp
            refine h4 ?_
            by_cases hterm : symbol ∈ terms
            · simp only [if_pos hterm]
              exact EntryOk_writeAction symbol hok1 hj
            · simp only [if_neg hterm]
              exact EntryOk_writeGoto symbol hok1 hj

theorem constructAux_inv (g : Grammar) (terms nts : List String) (cf : Nat)
    (syms : List String) (fuel : Nat) :
    ∀ (proc queue : List (List Item)) (table : List (Nat × Entry))
      (states' : List (List Item)) (table' : List (Nat × Entry)),
      constructAux g terms nts cf syms fuel (proc ++ queue, queue, table) =
        some (states', table') →
      (∀ s ∈ proc, GoodState g nts cf syms s (proc ++ queue)) →
      (∀ p ∈ table, EntryOk p.2 (proc ++ queue).length) →
      (∀ s ∈ states', GoodState g nts cf syms s states') ∧
      (∀ p ∈ table', EntryOk p.2 states'.length) := by
  induction fuel with
  | zero =>
    intro proc queue table states' table' h _ _
    exact absurd h (by simp [constructAux])
  | succ fuel ih =>
    intro proc queue table states' table' h hproc htable
    cases queue with
    | nil =>
      simp only [constructAux, Option.some.injEq, Prod.mk.injEq] at h
      obtain ⟨h1, h2⟩ := h
      subst h1
      subst h2
      simp only [List.append_nil] at hproc htable ⊢
      exact ⟨hproc, htable⟩
    | cons cur rest =>
      simp only [constructAux] at h
      cases hfi : findStateIdx (proc ++ cur :: rest) cur with
      | none => rw [hfi] at h; exact absurd h (by simp)
      | some idx =>
        simp only [hfi] at h
        cases hps : processSymbols g terms nts cf cur syms (proc ++ cur :: rest, rest, emptyEntry) with
        | none => rw [hps] at h; exact absurd h (by simp)
        | some out =>
          simp only [hps] at h
          obtain ⟨states1, queue1, entry⟩ := out
          obtain ⟨Δ, h1, h2, h3, h4⟩ :=
            processSymbols_spec g terms nts cf cur syms (proc ++ cur :: rest) rest
              emptyEntry (states1, queue1, entry) hps
          simp only at h1 h2 h3 h4
          have hsplit : states1 = (proc ++ [cur]) ++ queue1 := by
            rw [h1, h2]
            simp
          rw [hsplit] at h
          have hentry : EntryOk entry states1.length :=
            h4 (EntryOk_empty _)
          refine ih (proc ++ [cur]) queue1 (upsertS table idx entry) states' table'
            h ?_ ?_
          · intro s hs
            rw [← hsplit]
            rcases List.mem_append.1 hs with hs' | hs'
            · rw [h1]
              exact GoodState_mono (hproc s hs')
            · have : s = cur := by simpa using hs'
              subst this
              rw [h1]
              rw [h1] at h3
              exact h3
          · intro p hp
            rw [← hsplit]
            rcases mem_upsertS hp with hp' | hp'
            · refine EntryOk_mono (htable p hp') ?_
              rw [h1]
              simp
            · rw [hp']
              exact hentry

theorem constructLR0Items_spec (bf cf : Nat) (g : Grammar) (terms nts : List String)
    (start : String) (states : List (List Item)) (table : List (Nat × Entry))
    (h : constructLR0Items bf cf g terms nts start = some (states, table)) :
    (∀ s ∈ states, GoodState g nts cf (listUnion terms nts) s states) ∧
    (∀ p ∈ table, EntryOk p.2 states.length) := by
  unfold constructLR0Items at h
  cases hp0 : (prods g start).head? with
  | none => rw [hp0] at h; exact absurd h (by simp)
  | some p0 =>
    simp only [hp0] at h
    cases hc : closureFix g nts cf [(start, "", splitWS p0)] with
    | none => rw [hc] at h; exact absurd h (by simp)
    | some s0 =>
      simp only [hc] at h
      refine constructAux_inv g terms nts cf (listUnion terms nts) bf [] [s0] []
        states table (by simpa using h) (by simp) (by simp)

/-! ### Symbol-extraction characterization -/

theorem classifyToks_mem (toks : List String) :
    ∀ (acc : List String × List String) (x : String),
      (x ∈ (classifyToks acc toks).1 ↔
        x ∈ acc.1 ∨ (x ∈ toks ∧ pyIsUpper x = false)) ∧
      (x ∈ (classifyToks acc toks).2 ↔
        x ∈ acc.2 ∨ (x ∈ toks ∧ pyIsUpper x = true)) := by
  induction toks with
  | nil => intro acc x; simp [classifyToks]
  | cons sym rest ih =>
    intro acc x
    simp only [classifyToks, List.foldl_cons] at *
    by_cases hu : pyIsUpper sym
    · rw [if_pos hu]
      have h1 := ih (acc.1, setInsert acc.2 sym) x
      have hx : x = sym → pyIsUpper x = true := fun e => e ▸ hu
      constructor
      · rw [h1.1]
        simp only [List.mem_cons]
        constructor
        · rintro (h | ⟨h, h2⟩)
          · exact Or.inl h
          · exact Or.inr ⟨Or.inr h, h2⟩
        · rintro (h | ⟨h | h, h2⟩)
          · exact Or.inl h
          · rw [hx h] at h2; cases h2
          · exact Or.inr ⟨h, h2⟩
      · rw [h1.2]
        simp only [mem_setInsert, List.mem_cons]
        constructor
        · rintro ((h | h) | ⟨h, h2⟩)
          · exact Or.inr ⟨Or.inl h, hx h⟩
          · exact Or.inl h
          · exact Or.inr ⟨Or.inr h, h2⟩
        · rintro (h | ⟨h | h, h2⟩)
          · exact Or.inl (Or.inr h)
          · exact Or.inl (Or.inl h)
          · exact Or.inr ⟨h, h2⟩
    · rw [if_neg hu]
      have h1 := ih (setInsert acc.1 sym, acc.2) x
      have hx : x = sym → pyIsUpper x = false := by
        intro e
        subst e
        exact Bool.not_eq_true _ ▸ (by simpa using hu)
      constructor
      · rw [h1.1]
        simp only [mem_setInsert, List.mem_cons]
        constructor
        · rintro ((h | h) | ⟨h, h2⟩)
          · exact Or.inr ⟨Or.inl h, hx h⟩
          · exact Or.inl h
          · exact Or.inr ⟨Or.inr h, h2⟩
        · rintro (h | ⟨h | h, h2⟩)
          · exact Or.inl (Or.inr h)
          · exact Or.inl (Or.inl h)
          · exact Or.inr ⟨h, h2⟩
      · rw [h1.2]
        simp only [List.mem_cons]
        constructor
        · rintro (h | ⟨h, h2⟩)
          · exact Or.inl h
          · exact Or.inr ⟨Or.inr h, h2⟩
        · rintro (h | ⟨h | h, h2⟩)
          · exact Or.inl h
          · rw [hx h] at h2; cases h2
          · exact Or.inr ⟨h, h2⟩

theorem prodsFold_mem (ps : List String) :
    ∀ (acc : List String × List String) (x : String),
      (x ∈ (ps.foldl (fun b p => classifyToks b (splitWS p)) acc).1 ↔
        x ∈ acc.1 ∨ ∃ p ∈ ps, x ∈ splitWS p ∧ pyIsUpper x = false) ∧
      (x ∈ (ps.foldl (fun b p => classifyToks b (splitWS p)) acc).2 ↔
        x ∈ acc.2 ∨ ∃ p ∈ ps, x ∈ splitWS p ∧ pyIsUpper x = true) := by
  induction ps with
  | nil => intro acc x; simp
  | cons p rest ih =>
    intro acc x
    simp only [List.foldl_cons]
    have h1 := ih (classifyToks acc (splitWS p)) x
    have h2 := classifyToks_mem (splitWS p) acc x
    constructor
    · rw [h1.1, h2.1]
      simp only [List.mem_cons]
      constructor
      · rintro ((h | ⟨h, hu⟩) | ⟨q, hq, hxq, hu⟩)
        · exact Or.inl h
        · exact Or.inr ⟨p, Or.inl rfl, h, hu⟩
        · exact Or.inr ⟨q, Or.inr hq, hxq, hu⟩
      · rintro (h | ⟨q, hq | hq, hxq, hu⟩)
        · exact Or.inl (Or.inl h)
        · exact Or.inl (Or.inr ⟨hq ▸ hxq, hu⟩)
        · exact Or.inr ⟨q, hq, hxq, hu⟩
    · rw [h1.2, h2.2]
      simp only [List.mem_cons]
      constructor
      · rintro ((h | ⟨h, hu⟩) | ⟨q, hq, hxq, hu⟩)
        · exact Or.inl h
        · exact Or.inr ⟨p, Or.inl rfl, h, hu⟩
        · exact Or.inr ⟨q, Or.inr hq, hxq, hu⟩
      · rintro (h | ⟨q, hq | hq, hxq, hu⟩)
        · exact Or.inl (Or.inl h)
        · exact Or.inl (Or.inr ⟨hq ▸ hxq, hu⟩)
        · exact Or.inr ⟨q, hq, hxq, hu⟩

theorem gramFold_mem (g : Grammar) :
    ∀ (acc : List String × List String) (x : String),
      (x ∈ (g.foldl
          (fun (a : List String × List String) entry =>
            entry.2.foldl (fun b production => classifyToks b (splitWS production))
              (a.1, setInsert a.2 entry.1)) acc).1 ↔
        x ∈ acc.1 ∨ (occursInRHS g x ∧ pyIsUpper x = false)) ∧
      (x ∈ (g.foldl
          (fun (a : List String × List String) entry =>
            entry.2.foldl (fun b production => classifyToks b (splitWS production))
              (a.1, setInsert a.2 entry.1)) acc).2 ↔
        x ∈ acc.2 ∨ (∃ pr ∈ g, pr.1 = x) ∨ (occursInRHS g x ∧ pyIsUpper x = true)) := by
  induction g with
  | nil => intro acc x; simp [occursInRHS]
  | cons entry rest ih =>
    intro acc x
    simp only [List.foldl_cons]
    have h1 := ih (entry.2.foldl (fun b production => classifyToks b (splitWS production))
      (acc.1, setInsert acc.2 entry.1)) x
    have h2 := prodsFold_mem entry.2 (acc.1, setInsert acc.2 entry.1) x
    have hocc : occursInRHS (entry :: rest) x ↔
        (∃ p ∈ entry.2, x ∈ splitWS p) ∨ occursInRHS rest x := by
      simp only [occursInRHS, List.mem_cons]
      constructor
      · rintro ⟨pr, rfl | hpr, hp⟩
        · exact Or.inl hp
        · exact Or.inr ⟨pr, hpr, hp⟩
      · rintro (h | ⟨pr, hpr, hp⟩)
        · exact ⟨entry, Or.inl rfl, h⟩
        · exact ⟨pr, Or.inr hpr, hp⟩
    constructor
    · rw [h1.1, h2.1, hocc]
      constructor
      · rintro ((h | ⟨p, hp, hxp, hu⟩) | ⟨h, hu⟩)
        · exact Or.inl h
        · exact Or.inr ⟨Or.inl ⟨p, hp, hxp⟩, hu⟩
        · exact Or.inr ⟨Or.inr h, hu⟩
      · rintro (h | ⟨⟨p, hp, hxp⟩ | h, hu⟩)
        · exact Or.inl (Or.inl h)
        · exact Or.inl (Or.inr ⟨p, hp, hxp, hu⟩)
        · exact Or.inr ⟨h, hu⟩
    · rw [h1.2, h2.2]
      simp only [mem_setInsert, List.mem_cons, hocc]
      aesop

/-! ### Grammar-parsing (duplicate LHS) lemmas -/

theorem lookupS_upsertAll (l : String) (rs : List (String × List String)) :
    ∀ init : Grammar,
      lookupS (upsertAll init rs) l =
        rs.foldl (fun acc r => if r.1 = l then some r.2 else acc) (lookupS init l) := by
  induction rs with
  | nil => intro init; rfl
  | cons r rest ih =>
    intro init
    simp only [upsertAll, List.foldl_cons]
    have := ih (upsertS init r.1 r.2)
    simp only [upsertAll] at this
    rw [this]
    by_cases hl : r.1 = l
    · rw [if_pos hl, hl, lookupS_upsertS_self]
    · rw [if_neg hl, lookupS_upsertS_ne init r.1 l r.2 (fun e => hl e.symm)]

theorem upsertS_head_key {m : Grammar} (hm : m ≠ []) (k : String) (v : List String) :
    (upsertS m k v).head?.map Prod.fst = m.head?.map Prod.fst := by
  cases m with
  | nil => exact absurd rfl hm
  | cons p rest =>
    obtain ⟨k0, v0⟩ := p
    by_cases h : k0 = k
    · subst h
      simp [upsertS]
    · simp [upsertS, h]

theorem upsertAll_ne_nil (rs : List (String × List String)) :
    ∀ {init : Grammar}, init ≠ [] → upsertAll init rs ≠ [] := by
  induction rs with
  | nil => intro init h; exact h
  | cons r rest ih =>
    intro init h
    simp only [upsertAll, List.foldl_cons]
    exact ih (upsertS_ne_nil init r.1 r.2)

theorem upsertAll_head_key (rs : List (String × List String)) :
    ∀ {init : Grammar}, init ≠ [] →
      (upsertAll init rs).head?.map Prod.fst = init.head?.map Prod.fst := by
  induction rs with
  | nil => intro init _; rfl
  | cons r rest ih =>
    intro init h
    simp only [upsertAll, List.foldl_cons]
    have h1 := ih (upsertS_ne_nil init r.1 r.2)
    simp only [upsertAll] at h1
    rw [h1, upsertS_head_key h]

/-! ### Engine single-step claim theorems (C4 amended, C8) -/

/-- C4 (amended): during a reduce step whose GOTO entry for the reduced
non-terminal is undefined at the state exposed after popping, the engine
rejects with the "no goto" message — but the non-terminal `lhs` has already
been pushed before the goto check, so the stack recorded in the final error
trace record is the stack after popping *with `lhs` appended*, not the bare
popped stack. -/
theorem c4_nogoto_records_pushed_lhs (g : Grammar) (tbl : List (Nat × Entry))
    (stepN : Nat) (c : Cfg) (s : Nat) (tl : List StackEl) (a : String) (e : Entry)
    (lhs : String) (idx : Int) (production : String) (t : Nat)
    (rest : List StackEl) (e2 : Entry)
    (hstack : c.stack = .st s :: tl)
    (htok : c.toks.get? c.pos = some a)
    (he : lookupS tbl s = some e)
    (hact : lookupS e.action a = some (.reduce lhs idx))
    (hprod : pyIndex (prods g lhs) idx = some production)
    (hdrop : c.stack.drop (2 * (splitWS production).length) = .st t :: rest)
    (he2 : lookupS tbl t = some e2)
    (hgoto : lookupS e2.goto lhs = none) :
    engineStep g tbl stepN c =
      .halt false (.noGoto lhs t)
        ⟨stepN, .errorT (.noGoto lhs t),
          (StackEl.st t :: rest).reverse ++ [StackEl.sym lhs], c.toks.drop c.pos⟩ := by
  unfold engineStep
  rw [hstack] at hdrop
  rw [hstack]
  simp only [htok, he, hact, hprod, hdrop, he2, hgoto, List.reverse_cons]

/-- C8: a successful reduce step pops exactly `2 × |RHS|` stack elements
(the dropped prefix; zero for an ε-production), then pushes exactly two
(the non-terminal and the goto state), so the stack recorded in the reduce
trace record has height `previous − 2 × |RHS| + 2`. -/
theorem c8_reduce_stack_height (g : Grammar) (tbl : List (Nat × Entry))
    (stepN : Nat) (c : Cfg) (s : Nat) (tl : List StackEl) (a : String) (e : Entry)
    (lhs : String) (idx : Int) (production : String) (t : Nat)
    (rest : List StackEl) (e2 : Entry) (gs : Nat)
    (hstack : c.stack = .st s :: tl)
    (htok : c.toks.get? c.pos = some a)
    (he : lookupS tbl s = some e)
    (hact : lookupS e.action a = some (.reduce lhs idx))
    (hprod : pyIndex (prods g lhs) idx = some production)
    (hdrop : c.stack.drop (2 * (splitWS production).length) = .st t :: rest)
    (he2 : lookupS tbl t = some e2)
    (hgoto : lookupS e2.goto lhs = some gs) :
    engineStep g tbl stepN c =
      .cont ⟨.st gs :: .sym lhs :: .st t :: rest, c.toks, c.pos⟩
        ⟨stepN, .reduceT lhs production (splitWS production).length gs,
          (StackEl.st gs :: .sym lhs :: .st t :: rest).reverse, c.toks.drop c.pos⟩ ∧
    (StackEl.st gs :: StackEl.sym lhs :: StackEl.st t :: rest).length =
      c.stack.length - 2 * (splitWS production).length + 2 := by
  constructor
  · unfold engineStep
    rw [hstack] at hdrop
    rw [hstack]
    simp only [htok, he, hact, hprod, hdrop, he2, hgoto]
  · have h1 : (c.stack.drop (2 * (splitWS production).length)).length =
        c.stack.length - 2 * (splitWS production).length := List.length_drop _ _
    rw [hdrop] at h1
    simp only [List.length_cons] at h1 ⊢
    omega

/-! ### Claim C1: the FOLLOW stage mutates the FIRST map (code bug) -/

/-- C1: the claim says `compute_follow_sets` leaves the FIRST map unchanged;
the code violates it.  On the grammar `S -> B C ; B -> b | ; C -> c`,
`compute_first_sets` yields FIRST(C) = {c}, but `compute_follow_sets`
mutates it to {c, b} through the aliased trailer
(`trailer = self.first["C"]` followed by `trailer.update(FIRST(B) - {ε})`). -/
theorem c1_follow_mutates_first :
    parseGrammar "S -> B C ; B -> b | ; C -> c" =
      some [("S", ["B C"]), ("B", ["b", ""]), ("C", ["c"])] ∧
    extractSymbols c1g = (["b", "c", "$"], c1nts) ∧
    c1firstComputed "C" = ["c"] ∧
    c1afterFollow.map (fun ff => ff.first "C") = some ["c", "b"] :=
  ⟨by decide, by decide, by decide, by decide⟩

/-! ### Claim C2: `compute_first_sets` diverges on indirect left recursion -/

theorem c2_firstSym_none :
    ∀ (n : Nat) (mem : SymMap), mem "A" = [] → mem "B" = [] →
      firstSym c2g ["$"] n mem "A" = none ∧ firstSym c2g ["$"] n mem "B" = none := by
  intro n
  induction n with
  | zero => intro mem _ _; exact ⟨rfl, rfl⟩
  | succ n ih =>
    intro mem hA hB
    constructor
    · simp only [firstSym]
      rw [if_neg (by decide : ¬ ("A" ∈ ["$"]))]
      rw [hA]
      rw [if_neg (by simp)]
      have hp : prods c2g "A" = ["B"] := rfl
      rw [hp]
      simp only [firstOverProds]
      rw [if_neg (by decide : ¬ ("B" = ""))]
      have hsp : splitWS "B" = ["B"] := rfl
      rw [hsp]
      simp only [firstScan]
      rw [if_neg (by decide : ¬ ("B" = "A"))]
      rw [(ih mem hA hB).2]
    · simp only [firstSym]
      rw [if_neg (by decide : ¬ ("B" ∈ ["$"]))]
      rw [hB]
      rw [if_neg (by simp)]
      have hp : prods c2g "B" = ["A"] := rfl
      rw [hp]
      simp only [firstOverProds]
      rw [if_neg (by decide : ¬ ("A" = ""))]
      have hsp : splitWS "A" = ["A"] := rfl
      rw [hsp]
      simp only [firstScan]
      rw [if_neg (by decide : ¬ ("A" = "B"))]
      rw [(ih mem hA hB).1]

/-- C2: the claim says every accepted grammar, including the indirectly
left-recursive `A -> B ; B -> A`, makes `compute_first_sets` return.  The
code violates it: `first("A")` calls `first("B")` which calls `first("A")`
with the memo still empty, so the recursion never returns (no fuel
suffices; in Python, a `RecursionError`). -/
theorem c2_first_sets_never_return :
    ∀ fuel : Nat, computeFirstSets fuel c2g ["$"] c2nts = none := by
  intro fuel
  have h1 := (c2_firstSym_none fuel (fun _ => []) rfl rfl).1
  show computeFirstSets fuel c2g ["$"] ["A", "B", "A" ++ apos] = none
  simp only [computeFirstSets, List.foldl_cons, List.foldl_nil, h1]

/-! ### Claim C3: first-writer-wins fails for accept (corrected) -/

/-- C3 (counterexample): on the grammar `S -> S $ | a`, the automaton
writes `ACTION[2]['$'] = shift 3` (state 2 holds `S -> S • $`), and the
table builder's unconditional accept write (state 2 also holds
`S' -> S •`) later *overwrites* it — the claim said a later accept
assignment to an occupied cell is silently dropped. -/
theorem c3_accept_overwrite_counterexample :
    parseGrammar "S -> S $ | a" = some [("S", ["S $", "a"])] ∧
    c3auto.bind (fun r => (lookupS r.2 2).map (fun e => lookupS e.action "$")) =
      some (some (PAction.shift 3)) ∧
    c3final.bind (fun t => (lookupS t 2).map (fun e => lookupS e.action "$")) =
      some (some PAction.accept) :=
  ⟨by decide, by decide, by decide⟩

/-- C3 (amended): in `build_slr_parsing_table`, once a cell is populated,
any later *reduce* assignment to it is silently dropped — processing a
state's items can change an occupied ACTION cell only by overwriting it
with `accept` (which targets only the `$` column). -/
theorem c3_populated_cell_only_overwritten_by_accept (start : String) (g : Grammar)
    (fm : SymMap) (st : List Item) (am : List (String × PAction)) (t : String)
    (v : PAction) (h : lookupS am t = some v) :
    lookupS (st.foldl (applyItem start g fm) am) t = some v ∨
    (t = "$" ∧ lookupS (st.foldl (applyItem start g fm) am) t = some PAction.accept) :=
  itemsFold_preserve start g fm st am t v h

/-- C3 witness: a populated shift cell survives the reduce writes of a
completed item. -/
theorem c3_witness :
    lookupS ([(("X", "a", ([] : List String)) : Item)].foldl
      (applyItem "Z" [("X", ["a"])] (fun _ => ["b"])) [("b", PAction.shift 7)]) "b" =
      some (PAction.shift 7) ∨
    ("b" = "$" ∧
      lookupS ([(("X", "a", ([] : List String)) : Item)].foldl
        (applyItem "Z" [("X", ["a"])] (fun _ => ["b"])) [("b", PAction.shift 7)]) "b" =
        some PAction.accept) :=
  c3_populated_cell_only_overwritten_by_accept "Z" [("X", ["a"])] (fun _ => ["b"])
    [("X", "a", [])] [("b", PAction.shift 7)] "b" (PAction.shift 7) (by decide)

/-! ### Claim C4: error-trace stack on a missing goto (corrected) -/

/-- C4 (counterexample): grammar `S -> a  b | c` (two spaces, so the
completed item's normalized prefix matches no production and `prod_idx`
is `-1`, selecting production `"c"`), input `ab`.  The run rejects with
"no goto for S from state 1", and the stack in the final trace record is
`[0, a, 1, S]` — the reduced non-terminal `S` was pushed before the goto
check — not the bare post-pop stack `[0, a, 1]` the claim describes. -/
theorem c4_pushed_lhs_counterexample :
    c4run.map (fun r => (r.1, r.2.1, r.2.2.getLast?)) =
      some (false, EMsg.noGoto "S" 1,
        some ⟨3, .errorT (.noGoto "S" 1),
          [.st 0, .sym "a", .st 1, .sym "S"], ["$"]⟩) ∧
    [StackEl.st 0, .sym "a", .st 1, .sym "S"] ≠ [StackEl.st 0, .sym "a", .st 1] :=
  ⟨by decide, by decide⟩

/-- C4 witness: a concrete configuration reaching the missing-goto branch. -/
theorem c4_witness :
    engineStep [("S", ["a"])]
      [(5, ⟨[("$", PAction.reduce "S" 0)], []⟩), (0, ⟨[], []⟩)] 1
      ⟨[.st 5, .sym "a", .st 0], ["$"], 0⟩ =
    .halt false (.noGoto "S" 0)
      ⟨1, .errorT (.noGoto "S" 0),
        (StackEl.st 0 :: ([] : List StackEl)).reverse ++ [StackEl.sym "S"], ["$"]⟩ :=
  c4_nogoto_records_pushed_lhs [("S", ["a"])]
    [(5, ⟨[("$", PAction.reduce "S" 0)], []⟩), (0, ⟨[], []⟩)] 1
    ⟨[.st 5, .sym "a", .st 0], ["$"], 0⟩ 5 [.sym "a", .st 0] "$"
    ⟨[("$", PAction.reduce "S" 0)], []⟩ "S" 0 "a" 0 [] ⟨[], []⟩
    rfl rfl (by decide) (by decide) (by decide) rfl (by decide) (by decide)

/-! ### Claim C5: non-terminal classification is Python `isupper` (corrected) -/

/-- C5 (counterexample): the claim says a token is a non-terminal iff it
consists entirely of uppercase letters.  On `S -> A1 b`, the token `A1`
contains a digit — the claim would make it a terminal — yet the code's
`isupper()` test classifies it as a non-terminal, and it is absent from
the terminal set. -/
theorem c5_isupper_counterexample :
    parseGrammar "S -> A1 b" = some [("S", ["A1 b"])] ∧
    "A1" ∈ (extractSymbols c5g).2 ∧
    "A1" ∉ (extractSymbols c5g).1 ∧
    specAllUpperLetters "A1" = false ∧
    pyIsUpper "A1" = true :=
  ⟨by decide, by decide, by decide, by decide, by decide⟩

/-- C5 (amended): `_extract_symbols` classifies a RHS token as a
non-terminal iff Python's `str.isupper` holds of it (at least one letter
and no lowercase letter — digits and punctuation are ignored); every LHS
is also a non-terminal; a RHS token lands in the terminal set iff
`isupper` fails of it; and `$` is always a terminal. -/
theorem c5_classification_follows_isupper (g : Grammar) (x : String) :
    (x ∈ (extractSymbols g).2 ↔
      (∃ pr ∈ g, pr.1 = x) ∨ (occursInRHS g x ∧ pyIsUpper x = true)) ∧
    (x ∈ (extractSymbols g).1 ↔
      x = "$" ∨ (occursInRHS g x ∧ pyIsUpper x = false)) := by
  have h := gramFold_mem g ([], []) x
  unfold extractSymbols
  constructor
  · rw [h.2]
    simp
  · rw [mem_setInsert, h.1]
    simp

/-! ### Claim C6: accept appears exactly at the completed start item -/

/-- C6: in the table built from the automaton, `ACTION[i]['$'] = accept`
holds for exactly those states whose item set contains a completed item of
the augmented start symbol; accept appears under no other terminal and in
no other state. -/
theorem c6_accept_iff_completed_start (bf cf : Nat) (g : Grammar)
    (terms nts : List String) (start : String) (fm : SymMap)
    (states : List (List Item)) (t0 tf : List (Nat × Entry))
    (h1 : constructLR0Items bf cf g terms nts start = some (states, t0))
    (h2 : buildSLRParsingTable start g fm states t0 = some tf) :
    ∀ (i : Nat) (st : List Item), states.get? i = some st →
      ∃ e, lookupS tf i = some e ∧
        ∀ a, (lookupS e.action a = some PAction.accept ↔
          (a = "$" ∧ hasCompletedStart start st = true)) := by
  intro i st hi
  obtain ⟨e0, he0, hef⟩ := buildSLRAux_lookup_at start g fm states 0 t0 tf h2 i st hi
  rw [Nat.zero_add] at he0 hef
  refine ⟨_, hef, fun a => ?_⟩
  have hiff := itemsFold_accept_iff start g fm st e0.action a
  have hok := (constructLR0Items_spec bf cf g terms nts start states t0 h1).2
  have hok0 := hok (i, e0) (lookupS_mem he0)
  constructor
  · intro hacc
    rcases hiff.1 hacc with h | h
    · obtain ⟨m, hm, _⟩ := hok0.1 a _ h
      simp at hm
    · exact h
  · intro h
    exact hiff.2 (Or.inr h)

/-- C6 witness: for the grammar `S -> a`, state 2 (holding `S' -> S •`)
carries the accept in its `$` cell, and the iff instance holds there. -/
theorem c6_witness :
    lookupS (⟨[("$", PAction.accept)], []⟩ : Entry).action "$" = some PAction.accept ↔
      ("$" = "$" ∧ hasCompletedStart ("S" ++ apos) [("S" ++ apos, "S", [])] = true) := by
  obtain ⟨e, he, hiff⟩ :=
    c6_accept_iff_completed_start 20 20 cwg ["a", "$"] ["S", "S" ++ apos]
      ("S" ++ apos) cwfollow cwstates cwtable cwfinalTable rfl rfl
      2 [("S" ++ apos, "S", [])] rfl
  have heq : e = (⟨[("$", PAction.accept)], []⟩ : Entry) := by
    have hl : lookupS cwfinalTable 2 = some (⟨[("$", PAction.accept)], []⟩ : Entry) := by
      decide
    rw [hl] at he
    injection he with hh
    exact hh.symm
  exact heq ▸ hiff "$"

/-! ### Claim C7: discovered states closed under goto; indices in range -/

/-- C7: after automaton construction, every discovered state's nonempty
goto image is itself among the discovered states (up to item-set equality),
and every recorded shift target and goto target is a valid index strictly
below the number of discovered states. -/
theorem c7_states_closed_under_goto (bf cf : Nat) (g : Grammar)
    (terms nts : List String) (start : String) (states : List (List Item))
    (table : List (Nat × Entry))
    (h : constructLR0Items bf cf g terms nts start = some (states, table)) :
    (∀ s ∈ states, ∀ X ∈ listUnion terms nts, ∀ ns,
      gotoFn g nts cf s X = some ns → ns ≠ [] → containsSetEq states ns = true) ∧
    (∀ i e, lookupS table i = some e →
      (∀ t m, lookupS e.action t = some (PAction.shift m) → m < states.length) ∧
      (∀ A j, lookupS e.goto A = some j → j < states.length)) := by
  have hs := constructLR0Items_spec bf cf g terms nts start states table h
  refine ⟨hs.1, fun i e he => ?_⟩
  have hok := hs.2 (i, e) (lookupS_mem he)
  refine ⟨fun t m hm => ?_, hok.2⟩
  obtain ⟨m', hm', hlt⟩ := hok.1 t _ hm
  injection hm' with hmm
  exact hmm ▸ hlt

/-- C7 witness: for `S -> a`, the goto image of the start state on `S`
is present among the discovered states. -/
theorem c7_witness :
    containsSetEq cwstates [("S" ++ apos, "S", [])] = true :=
  (c7_states_closed_under_goto 20 20 cwg ["a", "$"] ["S", "S" ++ apos]
      ("S" ++ apos) cwstates cwtable rfl).1
    [("S" ++ apos, "", ["S"]), ("S", "", ["a"])] (by decide) "S" (by decide)
    [("S" ++ apos, "S", [])] rfl (by decide)

/-- C8 witness: a concrete successful reduce by `S -> a` popping two
elements and pushing the non-terminal and the goto state. -/
theorem c8_witness :
    engineStep [("S", ["a"])]
      [(5, ⟨[("$", PAction.reduce "S" 0)], []⟩), (0, ⟨[], [("S", 7)]⟩)] 1
      ⟨[.st 5, .sym "a", .st 0], ["$"], 0⟩ =
    .cont ⟨[.st 7, .sym "S", .st 0], ["$"], 0⟩
      ⟨1, .reduceT "S" "a" 1 7, [.st 0, .sym "S", .st 7], ["$"]⟩ ∧
    ([StackEl.st 7, .sym "S", .st 0]).length = 3 - 2 * 1 + 2 :=
  c8_reduce_stack_height [("S", ["a"])]
    [(5, ⟨[("$", PAction.reduce "S" 0)], []⟩), (0, ⟨[], [("S", 7)]⟩)] 1
    ⟨[.st 5, .sym "a", .st 0], ["$"], 0⟩ 5 [.sym "a", .st 0] "$"
    ⟨[("$", PAction.reduce "S" 0)], []⟩ "S" 0 "a" 0 [] ⟨[], [("S", 7)]⟩ 7
    rfl rfl (by decide) (by decide) (by decide) rfl (by decide) (by decide)

/-! ### Claim C9: a reduce entry never replaces an existing shift entry -/

/-- C9: if a cell of the automaton's ACTION table already holds a shift,
the table builder never turns it into a reduce — in every shift/reduce
conflict the shift is kept (away from the `$` column the cell stays the
same shift; the `$` cell can at most become accept). -/
theorem c9_reduce_never_replaces_shift (start : String) (g : Grammar) (fm : SymMap)
    (states : List (List Item)) (t0 tf : List (Nat × Entry)) (i : Nat) (e0 : Entry)
    (t : String) (n : Nat)
    (hb : buildSLRParsingTable start g fm states t0 = some tf)
    (he : lookupS t0 i = some e0)
    (hs : lookupS e0.action t = some (PAction.shift n)) :
    ∃ e', lookupS tf i = some e' ∧
      (∀ lhs idx, lookupS e'.action t ≠ some (PAction.reduce lhs idx)) ∧
      (t ≠ "$" → lookupS e'.action t = some (PAction.shift n)) := by
  obtain ⟨e', h1, _h2, h3⟩ := buildSLRAux_preserve start g fm states 0 t0 tf hb i e0 he
  rcases h3 t _ hs with h4 | h4
  · refine ⟨e', h1, fun lhs idx hc => ?_, fun _ => h4⟩
    rw [h4] at hc
    simp at hc
  · refine ⟨e', h1, fun lhs idx hc => ?_, fun hne => absurd h4.1 hne⟩
    rw [h4.2] at hc
    simp at hc

/-- C9 witness: a shift cell of a one-state table is not a reduce after
the builder runs. -/
theorem c9_witness :
    lookupS (⟨[("a", PAction.shift 0)], []⟩ : Entry).action "a" ≠
      some (PAction.reduce "S" (-1)) := by
  obtain ⟨e', h1, h2, _h3⟩ :=
    c9_reduce_never_replaces_shift "Z" [] (fun _ => []) [[]]
      [(0, ⟨[("a", PAction.shift 0)], []⟩)] [(0, ⟨[("a", PAction.shift 0)], []⟩)]
      0 ⟨[("a", PAction.shift 0)], []⟩ "a" 0 rfl rfl (by decide)
  have heq : e' = (⟨[("a", PAction.shift 0)], []⟩ : Entry) := by
    have hl : lookupS [(0, (⟨[("a", PAction.shift 0)], []⟩ : Entry))] 0 =
        some (⟨[("a", PAction.shift 0)], []⟩ : Entry) := rfl
    rw [hl] at h1
    injection h1 with hh
    exact hh.symm
  exact heq ▸ h2 "S" (-1)

/-! ### Claim C10: a duplicated LHS is replaced, start symbol from rule one -/

/-- C10: when the same LHS occurs in several `;`-rules, `parse_grammar`
keeps only the *last* rule's alternatives for that LHS (replacement, not
appending), while the start symbol is still the LHS of the *first* rule in
input order. -/
theorem c10_duplicate_lhs_last_wins (raw : String) (g : Grammar)
    (rs : List (String × List String))
    (hg : parseGrammar raw = some g) (hr : parsedRules raw = some rs) :
    (∀ l, lookupS g l = lastMatch l rs) ∧ startOf g = rs.head?.map Prod.fst := by
  unfold parseGrammar at hg
  simp only [hr] at hg
  by_cases hnil : upsertAll [] rs = []
  · rw [if_pos hnil] at hg
    exact absurd hg (by simp)
  · rw [if_neg hnil] at hg
    injection hg with hg
    subst hg
    constructor
    · intro l
      rw [lookupS_upsertAll l rs []]
      rfl
    · cases rs with
      | nil => exact absurd rfl hnil
      | cons r rest =>
        show (upsertAll [] (r :: rest)).head?.map Prod.fst = _
        have h1 : upsertAll [] (r :: rest) = upsertAll [(r.1, r.2)] rest := rfl
        rw [h1, upsertAll_head_key rest (by simp)]
        rfl

/-- C10 witness: `A -> a ; B -> b ; A -> c` maps `A` to `["c"]` only, and
the start symbol is still `A`. -/
theorem c10_witness :
    lookupS [("A", ["c"]), ("B", ["b"])] "A" =
      lastMatch "A" [("A", ["a"]), ("B", ["b"]), ("A", ["c"])] ∧
    startOf [("A", ["c"]), ("B", ["b"])] = some "A" := by
  have h := c10_duplicate_lhs_last_wins "A -> a ; B -> b ; A -> c"
    [("A", ["c"]), ("B", ["b"])] [("A", ["a"]), ("B", ["b"]), ("A", ["c"])] rfl rfl
  exact ⟨h.1 "A", h.2.trans rfl⟩

end SLR
